import Mathlib

/-!
Worker pool, summary roll-up, task list and extract action of `extract_new`.

A shallow embedding of `src/main.go` and `src/ExtractData.go`.

* `time.Time` values are integers (clock readings); `Before` is `<`, `After` is `>`.
* A Go `map[string]V` is a function `String → Option V`; `m[k] = v` is `GoMap.set`.
* A Go `error` is `Option String` (`none` is `nil`).
* A `sql.NullString` is `Option String` (`none` is `Valid = false`).
-/

set_option autoImplicit false

namespace ExtractNew

/-! ## Data model (`src/main.go`, lines 17-43) -/

/-- The `Task` struct. -/
structure Task where
  SolID : String
  Procedure : String
deriving DecidableEq, Repr

/-- The `ProcLog` struct; times are clock readings, `ExecutionTime` their difference. -/
structure ProcLog where
  SolID : String
  Procedure : String
  StartTime : Int
  EndTime : Int
  ExecutionTime : Int
  Status : String
  ErrorDetails : String
deriving DecidableEq, Repr

/-- The `ProcSummary` struct. -/
structure ProcSummary where
  Procedure : String
  StartTime : Int
  EndTime : Int
  Status : String
deriving DecidableEq, Repr

/-- A Go map with string keys. -/
abbrev GoMap (V : Type) := String → Option V

/-- The empty map, `make(map[string]V)`. -/
def GoMap.empty {V : Type} : GoMap V := fun _ => none

/-- The assignment `m[k] = v`. -/
def GoMap.set {V : Type} (m : GoMap V) (k : String) (v : V) : GoMap V :=
  fun k' => if k' = k then some v else m k'

/-! ## The worker's bookkeeping for one finished task (`worker`, lines 69-100) -/

/-- What the worker holds at line 69 for one task: the task, the two clock readings taken
around the action, and the error the action returned. -/
structure Outcome where
  task : Task
  start : Int
  stop : Int
  err : Option String
deriving DecidableEq, Repr

/-- Lines 70-82: the `ProcLog` record built for a finished task. -/
def mkProcLog (o : Outcome) : ProcLog :=
  let plog : ProcLog :=
    { SolID := o.task.SolID, Procedure := o.task.Procedure, StartTime := o.start,
      EndTime := o.stop, ExecutionTime := o.stop - o.start, Status := "", ErrorDetails := "" }
  match o.err with
  | some e => { plog with Status := "FAIL", ErrorDetails := e }
  | none => { plog with Status := "SUCCESS" }

/-- Lines 85-99: the update of `procSummary` done under `summaryMu` for one finished task. -/
def updateSummary (procSummary : GoMap ProcSummary) (o : Outcome) : GoMap ProcSummary :=
  let plog := mkProcLog o
  let s : ProcSummary :=
    match procSummary o.task.Procedure with
    | none =>
      { Procedure := o.task.Procedure, StartTime := o.start, EndTime := o.stop,
        Status := plog.Status }
    | some s =>
      let s := if o.start < s.StartTime then { s with StartTime := o.start } else s
      let s := if o.stop > s.EndTime then { s with EndTime := o.stop } else s
      let s := if s.Status ≠ "FAIL" ∧ plog.Status = "FAIL" then { s with Status := "FAIL" } else s
      s
  procSummary.set o.task.Procedure s

/-- The aggregator as a fold of `updateSummary` over the outcomes in the order in which the
workers enter the critical section, from the empty map of line 172. -/
def summarize (outs : List Outcome) : GoMap ProcSummary :=
  outs.foldl updateSummary GoMap.empty

/-- The outcomes of procedure `p`, in order. -/
def outcomesOf (p : String) (outs : List Outcome) : List Outcome :=
  outs.filter (fun o => o.task.Procedure = p)

/-- The roll-up invariant of the fold, for one key. -/
def EntryOk (outs : List Outcome) (p : String) (e : Option ProcSummary) : Prop :=
  match e with
  | none => ∀ o ∈ outs, o.task.Procedure ≠ p
  | some s =>
    s.Procedure = p ∧
    (∃ o ∈ outs, o.task.Procedure = p ∧ o.start = s.StartTime) ∧
    (∀ o ∈ outs, o.task.Procedure = p → s.StartTime ≤ o.start) ∧
    (∃ o ∈ outs, o.task.Procedure = p ∧ o.stop = s.EndTime) ∧
    (∀ o ∈ outs, o.task.Procedure = p → o.stop ≤ s.EndTime) ∧
    (s.Status = "FAIL" ↔ ∃ o ∈ outs, o.task.Procedure = p ∧ (mkProcLog o).Status = "FAIL") ∧
    (s.Status = "FAIL" ∨ s.Status = "SUCCESS")

/-! ## The worker pool (`main`, lines 184-229) -/

/-- The variables the manager goroutine shares with `main`, and a record of the
`context.WithCancel` calls made (`issued`) and of the cancel functions called (`raised`,
oldest first). A cancel function is named by the ordinal of the `context.WithCancel(ctx)` call
that returned it: every call yields a new one. -/
structure Pool where
  minWorkers : Int
  maxWorkers : Int
  workerCount : Int
  workerCancels : List Nat
  issued : Nat
  raised : List Nat
deriving DecidableEq, Repr

/-- One `context.WithCancel(ctx)` followed by `go worker(wctx, ...)` and
`workerCancels = append(workerCancels, wcancel)` (lines 198-201 and 215-218). -/
def Pool.spawn (s : Pool) : Pool :=
  { s with workerCancels := s.workerCancels ++ [s.issued], issued := s.issued + 1 }

/-- Lines 184-202: `minWorkers := 2`, `maxWorkers := appCfg.Concurrency`,
`workerCount := minWorkers`, the `make` of `workerCancels` (which panics on a negative
capacity, `none` here) and the loop starting the initial workers. -/
def initPool (concurrency : Int) : Option Pool :=
  let minWorkers : Int := 2
  let maxWorkers : Int := concurrency
  let workerCount : Int := minWorkers
  if maxWorkers < 0 then none
  else
    let s : Pool :=
      { minWorkers := minWorkers, maxWorkers := maxWorkers, workerCount := workerCount,
        workerCancels := [], issued := 0, raised := [] }
    some ((List.range workerCount.toNat).foldl (fun s _ => s.spawn) s)

/-- Lines 213-226: the body of the manager's `case <-ticker.C`, with `qlen := len(tasks)`.
An index out of range is a panic, `none` here. -/
def managerTick (s : Pool) (qlen : Nat) : Option Pool :=
  if (qlen : Int) > 20 ∧ s.workerCount < s.maxWorkers then
    some { s.spawn with workerCount := s.workerCount + 1 }
  else if (qlen : Int) < 5 ∧ s.workerCount > s.minWorkers then
    if 0 ≤ s.workerCount - 1 then
      match s.workerCancels[(s.workerCount - 1).toNat]? with
      | some wcancel =>
        some { s with raised := s.raised ++ [wcancel],
                      workerCancels := s.workerCancels.take (s.workerCount - 1).toNat,
                      workerCount := s.workerCount - 1 }
      | none => none
    else none
  else some s

/-- The manager's ticks for a sequence of observed queue lengths. -/
def runTicks : Pool → List Nat → Option Pool
  | s, [] => some s
  | s, qlen :: rest =>
    match managerTick s qlen with
    | some s' => runTicks s' rest
    | none => none

/-- The pool after `main` set it up for `appCfg.Concurrency = concurrency` and the manager
ticked once per queue length in `qlens`. -/
def poolAfter (concurrency : Int) (qlens : List Nat) : Option Pool :=
  match initPool concurrency with
  | some s => runTicks s qlens
  | none => none

/-- What holds of the pool in every state the program reaches. -/
def PoolOk (s : Pool) : Prop :=
  s.minWorkers = 2 ∧ (s.workerCancels.length : Int) = s.workerCount ∧ 2 ≤ s.workerCount ∧
  (2 ≤ s.maxWorkers → s.workerCount ≤ s.maxWorkers) ∧
  s.workerCancels.Pairwise (fun a b => a < b) ∧
  (∀ h ∈ s.workerCancels, h < s.issued) ∧ (∀ h ∈ s.raised, h < s.issued) ∧
  s.raised.Nodup ∧ (∀ h ∈ s.raised, h ∉ s.workerCancels)

/-! ## The task list (`main`, lines 160-167) -/

/-- Lines 161-166: the nested loops appending one `Task` per SOL and procedure. -/
def buildTasksList (sols procedures : List String) : List Task :=
  sols.foldl
    (fun tasksList sol =>
      procedures.foldl
        (fun tasksList proc => tasksList ++ [{ SolID := sol, Procedure := proc }])
        tasksList)
    []

/-! ## Contexts (`context.WithCancel`, as used in `main` and `worker`) -/

/-- A `context.Context`: the background context, or one derived by `context.WithCancel` whose
cancel function is named as in `Pool`. -/
inductive Context where
  | background : Context
  | withCancel (parent : Context) (cancel : Nat) : Context
deriving DecidableEq, Repr

/-- Whether the context is done once the cancel functions in `raised` have been called: its own
or one of an ancestor. -/
def Context.done (raised : List Nat) : Context → Bool
  | .background => false
  | .withCancel parent cancel => raised.contains cancel || parent.done raised

/-! ## The extract action (`src/ExtractData.go`) -/

/-- Modelled from the spec: `ColumnConfig` is declared outside `src/`; the spec's ColumnSpec
"carries at minimum a `name` (string)", the only field `extractData` reads. -/
structure ColumnConfig where
  Name : String
deriving DecidableEq, Repr

/-- Modelled from the spec: `ExtractionConfig` is declared outside `src/`; the fields are those
of the spec's data model, `SplitRules` being the map read at line 21. -/
structure ExtractionConfig where
  Procedures : List String
  PackageName : String
  TemplatePath : String
  SpoolOutputPath : String
  SplitRules : GoMap (List String)

/-- A `sql.NullString`: `none` when `Valid` is false. -/
abbrev NullString := Option String

/-- One row as the database returns it: one nullable value per selected column. -/
abbrev DbRow := List NullString

/-- A spool file after `extractData` is done with it: `filepath.Join(dir, fileName)` is where
`os.Create` made it, `records` are the arguments of the `csvWriter.Write` calls in order, and
`flushed` tells whether `csvWriter.Flush()` and `buf.Flush()` were reached. -/
structure SpoolFile where
  dir : String
  fileName : String
  records : List (List String)
  flushed : Bool
deriving DecidableEq, Repr

/-- The `rowGroups` map of line 25, kept as its entries in the order the keys were first
inserted. -/
abbrev RowGroups := List (String × List (List String))

/-- What `extractData` calls outside the program: the database, the file system, and the order
in which `range` visits a map (which Go leaves open). -/
structure World where
  QueryContext : Context → String → String → Except String (List DbRow)
  Create : String → String → Option String
  rangeOrder : RowGroups → RowGroups

/-- The `rows.Scan(scanArgs...)` of lines 27-34 and 87-94 into `n` destinations of type
`sql.NullString`: `database/sql` refuses a row whose width is not `n`. -/
def scanRow (n : Nat) (row : DbRow) : Except String (List NullString) :=
  if row.length = n then .ok row
  else .error ("sql: expected " ++ toString row.length ++ " destination arguments in Scan, not "
    ++ toString n)

/-- Lines 35-42 and 95-102: a null becomes the empty string, any other value its string. -/
def strValuesOf (values : List NullString) : List String :=
  values.map (fun v => match v with
    | some s => s
    | none => "")

/-- Lines 44-51: for each split column in turn, the values of the template columns of that
name. `strValues` has one entry per template column, so the index is in range. -/
def keyPartsOf (cols : List ColumnConfig) (splitCols : List String) (strValues : List String) :
    List String :=
  splitCols.foldl
    (fun keyParts splitCol =>
      cols.enum.foldl
        (fun keyParts ic => if ic.2.Name = splitCol then keyParts ++ [strValues.getD ic.1 ""]
          else keyParts)
        keyParts)
    []

/-- Line 52: `strings.Join(keyParts, "_")`. -/
def groupKeyOf (cols : List ColumnConfig) (splitCols : List String) (strValues : List String) :
    String :=
  "_".intercalate (keyPartsOf cols splitCols strValues)

/-- Line 53: `rowGroups[groupKey] = append(rowGroups[groupKey], strValues)`. -/
def RowGroups.push : RowGroups → String → List String → RowGroups
  | [], groupKey, strValues => [(groupKey, [strValues])]
  | (k, groupRows) :: rest, groupKey, strValues =>
    if k = groupKey then (k, groupRows ++ [strValues]) :: rest
    else (k, groupRows) :: RowGroups.push rest groupKey strValues

/-- Lines 26-54: the loop over `rows.Next()` on the split path; a scan error ends
`extractData` with that error. -/
def readGroups (cols : List ColumnConfig) (splitCols : List String) :
    List DbRow → RowGroups → Except String RowGroups
  | [], rowGroups => .ok rowGroups
  | row :: rest, rowGroups =>
    match scanRow cols.length row with
    | .error err => .error err
    | .ok values =>
      let strValues := strValuesOf values
      let groupKey := groupKeyOf cols splitCols strValues
      readGroups cols splitCols rest (rowGroups.push groupKey strValues)

/-- Line 57: `fmt.Sprintf("%s_%s_%s.spool", procName, solID, groupKey)`. -/
def splitFileName (procName solID groupKey : String) : String :=
  procName ++ "_" ++ solID ++ "_" ++ groupKey ++ ".spool"

/-- Lines 56-73: one file per group, in the order `range` yields the groups; a failing
`os.Create` ends `extractData` with that error, the files made so far stay. -/
def writeGroups (w : World) (dir procName solID : String) (colNames : List String) :
    RowGroups → List SpoolFile → Option String × List SpoolFile
  | [], files => (none, files)
  | (groupKey, groupRows) :: rest, files =>
    let fileName := splitFileName procName solID groupKey
    match w.Create dir fileName with
    | some err => (some err, files)
    | none =>
      writeGroups w dir procName solID colNames rest
        (files ++ [{ dir := dir, fileName := fileName, records := colNames :: groupRows,
                     flushed := true }])

/-- Lines 86-104: the loop over `rows.Next()` on the non-split path, from the records written
so far; a scan error ends `extractData` before the flushes. -/
def writeRows (cols : List ColumnConfig) :
    List DbRow → List (List String) → Option String × List (List String)
  | [], records => (none, records)
  | row :: rest, records =>
    match scanRow cols.length row with
    | .error err => (some err, records)
    | .ok values => writeRows cols rest (records ++ [strValuesOf values])

/-- The function `extractData`: the error it returns (`none` for `nil`) and the spool files it
created, in order. -/
def extractData (w : World) (ctx : Context) (procName solID : String) (cfg : ExtractionConfig)
    (templates : GoMap (List ColumnConfig)) : Option String × List SpoolFile :=
  match templates procName with
  | none => (some ("missing template for procedure " ++ procName), [])
  | some cols =>
    let colNames := cols.map (fun col => col.Name)
    let query := "SELECT " ++ ", ".intercalate colNames ++ " FROM " ++ procName ++
      " WHERE SOL_ID = :1"
    match w.QueryContext ctx query solID with
    | .error err => (some ("query failed: " ++ err), [])
    | .ok rows =>
      let splitCols := (cfg.SplitRules procName).getD []
      let doSplit := (cfg.SplitRules procName).isSome
      if doSplit ∧ splitCols.length > 0 then
        match readGroups cols splitCols rows [] with
        | .error err => (some err, [])
        | .ok rowGroups =>
          writeGroups w cfg.SpoolOutputPath procName solID colNames (w.rangeOrder rowGroups) []
      else
        let fileName := procName ++ "_" ++ solID ++ ".spool"
        match w.Create cfg.SpoolOutputPath fileName with
        | some err => (some err, [])
        | none =>
          match writeRows cols rows [colNames] with
          | (some err, records) =>
            (some err, [{ dir := cfg.SpoolOutputPath, fileName := fileName, records := records,
                          flushed := false }])
          | (none, records) =>
            (none, [{ dir := cfg.SpoolOutputPath, fileName := fileName, records := records,
                      flushed := true }])

/-! ## One task in the worker (`worker`, lines 60-83) -/

/-- Lines 60-82 for one task pulled from the queue: `mode` is the global of line 45, `start`
and `stop` are the two `time.Now()` readings, `callProcedure` (whose body is outside `src/`) is
a parameter. The context handed to either action is the worker's own `ctx`. -/
def runTask (mode : String) (w : World)
    (callProcedure : Context → String → String → String → Option String)
    (ctx : Context) (runCfg : ExtractionConfig) (templates : GoMap (List ColumnConfig))
    (task : Task) (start stop : Int) : Outcome :=
  let err : Option String :=
    if mode = "E" then (extractData w ctx task.Procedure task.SolID runCfg templates).1
    else if mode = "I" then callProcedure ctx runCfg.PackageName task.Procedure task.SolID
    else none
  { task := task, start := start, stop := stop, err := err }

/-- Lines 191 and 198/215: the root context of `main` and the context of the worker whose
cancel function is `wcancel`; the root's own cancel function is written `rootCancel`. -/
def workerContext (rootCancel wcancel : Nat) : Context :=
  .withCancel (.withCancel .background rootCancel) wcancel

/-- A database that holds `rows` and, as `database/sql` does, fails a query whose context is
done; `raised` are the cancel functions called by the time the query runs. File creation
succeeds. -/
def sqlWorld (raised : List Nat) (rows : List DbRow) : World where
  QueryContext := fun ctx _ _ =>
    if ctx.done raised then .error "context canceled" else .ok rows
  Create := fun _ _ => none
  rangeOrder := fun groups => groups

/-- The rows of a group list, group after group. -/
def groupedRows (groups : RowGroups) : List (List String) :=
  groups.flatMap (fun g => g.2)

/-- The split file written for one group (lines 57-71). -/
def splitFileOf (dir procName solID : String) (colNames : List String)
    (g : String × List (List String)) : SpoolFile :=
  { dir := dir, fileName := splitFileName procName solID g.1, records := colNames :: g.2,
    flushed := true }

/-! ## Sample inputs, used to instantiate the theorems below -/

/-- A template map with one procedure `P1` of columns `ID` and `REGION`. -/
def sampleTemplates : GoMap (List ColumnConfig) :=
  (GoMap.empty).set "P1" [⟨"ID"⟩, ⟨"REGION"⟩]

/-- A run configuration that splits `P1` by `REGION`. -/
def sampleSplitCfg : ExtractionConfig :=
  { Procedures := ["P1"], PackageName := "PKG", TemplatePath := "tmpl",
    SpoolOutputPath := "out", SplitRules := (GoMap.empty).set "P1" ["REGION"] }

/-- A run configuration without split rules. -/
def samplePlainCfg : ExtractionConfig :=
  { Procedures := ["P1"], PackageName := "PKG", TemplatePath := "tmpl",
    SpoolOutputPath := "out", SplitRules := GoMap.empty }

/-- Three rows of `P1`, one with a null `REGION`. -/
def sampleRows : List DbRow :=
  [[some "1", some "N"], [some "2", none], [some "3", some "N"]]

/-- Two rendered rows are data rows of one and the same written file. -/
def sameSplitFile (files : List SpoolFile) (r1 r2 : List String) : Prop :=
  ∃ f ∈ files, r1 ∈ f.records.tail ∧ r2 ∈ f.records.tail

/-- Two rendered rows agree in every template column named by a split column. -/
def equalSplitValues (cols : List ColumnConfig) (splitCols : List String)
    (r1 r2 : List String) : Prop :=
  ∀ splitCol ∈ splitCols, ∀ ic ∈ cols.enum, ic.2.Name = splitCol →
    r1.getD ic.1 "" = r2.getD ic.1 ""

/-- The positions of the template columns named by the split columns, in the order in which
line 48 reads them. -/
def splitIndices (cols : List ColumnConfig) (splitCols : List String) : List Nat :=
  splitCols.flatMap (fun splitCol =>
    (cols.enum.filter (fun ic => ic.2.Name = splitCol)).map Prod.fst)

/-- A template `T` of columns `A` and `B`. -/
def collideTemplates : GoMap (List ColumnConfig) :=
  (GoMap.empty).set "T" [⟨"A"⟩, ⟨"B"⟩]

/-- A run configuration that splits `T` by `A` and `B`. -/
def collideCfg : ExtractionConfig :=
  { Procedures := ["T"], PackageName := "PKG", TemplatePath := "tmpl",
    SpoolOutputPath := "out", SplitRules := (GoMap.empty).set "T" ["A", "B"] }

/-- Two rows of `T` that differ in both columns. -/
def collideRows : List DbRow :=
  [[some "a_b", some "c"], [some "a", some "b_c"]]

/-! # Theorems -/

/-! ## The summary roll-up -/

theorem mkProcLog_status (o : Outcome) :
    (mkProcLog o).Status = if o.err.isSome then "FAIL" else "SUCCESS" := by
  unfold mkProcLog
  cases o.err <;> simp

theorem mkProcLog_status_cases (o : Outcome) :
    (mkProcLog o).Status = "FAIL" ∨ (mkProcLog o).Status = "SUCCESS" := by
  rw [mkProcLog_status]; cases o.err <;> simp

theorem summarize_snoc (outs : List Outcome) (o : Outcome) :
    summarize (outs ++ [o]) = updateSummary (summarize outs) o := by
  simp [summarize, List.foldl_append]

theorem updateSummary_other (m : GoMap ProcSummary) (o : Outcome) (p : String)
    (h : p ≠ o.task.Procedure) : updateSummary m o p = m p := by
  simp [updateSummary, GoMap.set, h]

theorem updateSummary_fresh (m : GoMap ProcSummary) (o : Outcome)
    (h : m o.task.Procedure = none) :
    updateSummary m o o.task.Procedure =
      some { Procedure := o.task.Procedure, StartTime := o.start, EndTime := o.stop,
             Status := (mkProcLog o).Status } := by
  simp [updateSummary, GoMap.set, h]

theorem updateSummary_seen (m : GoMap ProcSummary) (o : Outcome) (s : ProcSummary)
    (h : m o.task.Procedure = some s) :
    updateSummary m o o.task.Procedure =
      some { Procedure := s.Procedure,
             StartTime := if o.start < s.StartTime then o.start else s.StartTime,
             EndTime := if o.stop > s.EndTime then o.stop else s.EndTime,
             Status := if s.Status ≠ "FAIL" ∧ (mkProcLog o).Status = "FAIL" then "FAIL"
                       else s.Status } := by
  simp only [updateSummary, GoMap.set, h, if_true]
  split_ifs <;> rfl

theorem summarize_entryOk (outs : List Outcome) (p : String) :
    EntryOk outs p (summarize outs p) := by
  induction outs using List.reverseRecOn with
  | nil => simp [summarize, GoMap.empty, EntryOk]
  | append_singleton outs o ih =>
    rw [summarize_snoc]
    by_cases hp : p = o.task.Procedure
    · subst hp
      cases hm : summarize outs o.task.Procedure with
      | none =>
        rw [hm] at ih
        rw [updateSummary_fresh _ _ hm]
        simp only [EntryOk] at ih ⊢
        refine ⟨trivial, ⟨o, by simp, rfl, rfl⟩, ?_, ⟨o, by simp, rfl, rfl⟩, ?_, ?_,
          mkProcLog_status_cases o⟩
        · intro o' ho' hp'
          rcases List.mem_append.1 ho' with h | h
          · exact absurd hp' (ih o' h)
          · simp at h; subst h; exact le_refl _
        · intro o' ho' hp'
          rcases List.mem_append.1 ho' with h | h
          · exact absurd hp' (ih o' h)
          · simp at h; subst h; exact le_refl _
        · constructor
          · intro h; exact ⟨o, by simp, rfl, h⟩
          · rintro ⟨o', ho', hp', hf⟩
            rcases List.mem_append.1 ho' with h | h
            · exact absurd hp' (ih o' h)
            · simp at h; subst h; exact hf
      | some s =>
        rw [hm] at ih
        rw [updateSummary_seen _ _ _ hm]
        simp only [EntryOk] at ih ⊢
        obtain ⟨hproc, ⟨a, ha, hap, hast⟩, hmin, ⟨b, hb, hbp, hbst⟩, hmax, hst, hcases⟩ := ih
        refine ⟨hproc, ?_, ?_, ?_, ?_, ?_, ?_⟩
        · by_cases hlt : o.start < s.StartTime
          · exact ⟨o, by simp, rfl, by simp [hlt]⟩
          · exact ⟨a, List.mem_append_left _ ha, hap, by simp [hlt, hast]⟩
        · intro o' ho' hp'
          rcases List.mem_append.1 ho' with h | h
          · have := hmin o' h hp'
            split_ifs <;> omega
          · simp at h; subst h
            split_ifs <;> omega
        · by_cases hgt : o.stop > s.EndTime
          · exact ⟨o, by simp, rfl, by simp [hgt]⟩
          · exact ⟨b, List.mem_append_left _ hb, hbp, by simp [hgt, hbst]⟩
        · intro o' ho' hp'
          rcases List.mem_append.1 ho' with h | h
          · have := hmax o' h hp'
            split_ifs <;> omega
          · simp at h; subst h
            split_ifs <;> omega
        · constructor
          · intro h
            by_cases hs : s.Status = "FAIL"
            · obtain ⟨c, hc, hcp, hcf⟩ := hst.1 hs
              exact ⟨c, List.mem_append_left _ hc, hcp, hcf⟩
            · by_cases ho : (mkProcLog o).Status = "FAIL"
              · exact ⟨o, by simp, rfl, ho⟩
              · simp [hs, ho] at h
          · rintro ⟨o', ho', hp', hf⟩
            rcases List.mem_append.1 ho' with h | h
            · have hs : s.Status = "FAIL" := hst.2 ⟨o', h, hp', hf⟩
              simp [hs]
            · simp at h; subst h
              by_cases hs : s.Status = "FAIL"
              · simp [hs]
              · simp [hs, hf]
        · rcases hcases with h | h
          · left; simp [h]
          · by_cases ho : (mkProcLog o).Status = "FAIL"
            · left; simp [h, ho]
            · right; simp [h, ho]
    · rw [updateSummary_other _ _ _ hp]
      have hp' : ∀ o' ∈ outs ++ [o], o'.task.Procedure = p → o' ∈ outs := by
        intro o' ho' hq
        rcases List.mem_append.1 ho' with h | h
        · exact h
        · simp at h; subst h; exact absurd hq.symm hp
      cases hm : summarize outs p with
      | none =>
        rw [hm] at ih
        simp only [EntryOk] at ih ⊢
        intro o' ho' hq
        exact ih o' (hp' o' ho' hq) hq
      | some s =>
        rw [hm] at ih
        simp only [EntryOk] at ih ⊢
        obtain ⟨hproc, ⟨a, ha, hap, hast⟩, hmin, ⟨b, hb, hbp, hbst⟩, hmax, hst, hcases⟩ := ih
        refine ⟨hproc, ⟨a, List.mem_append_left _ ha, hap, hast⟩, ?_,
          ⟨b, List.mem_append_left _ hb, hbp, hbst⟩, ?_, ?_, hcases⟩
        · intro o' ho' hq; exact hmin o' (hp' o' ho' hq) hq
        · intro o' ho' hq; exact hmax o' (hp' o' ho' hq) hq
        · rw [hst]
          constructor
          · rintro ⟨c, hc, hcp, hcf⟩; exact ⟨c, List.mem_append_left _ hc, hcp, hcf⟩
          · rintro ⟨c, hc, hcp, hcf⟩; exact ⟨c, hp' c hc hcp, hcp, hcf⟩

theorem summarize_some (outs : List Outcome) (p : String)
    (hp : ∃ o ∈ outs, o.task.Procedure = p) : ∃ s, summarize outs p = some s := by
  have h := summarize_entryOk outs p
  cases hm : summarize outs p with
  | none =>
    rw [hm] at h
    obtain ⟨o, ho, hop⟩ := hp
    exact absurd hop (h o ho)
  | some s => exact ⟨s, rfl⟩

/-- C1: folding the worker's summary update over any sequence of outcomes, the entry of a
procedure with at least one outcome has status FAIL exactly when one of its outcomes has
status FAIL, is SUCCESS otherwise, and stays FAIL under every further outcome. -/
theorem summary_status_fail_iff (outs : List Outcome) (p : String)
    (hp : ∃ o ∈ outs, o.task.Procedure = p) :
    ∃ s, summarize outs p = some s ∧
      (s.Status = "FAIL" ↔
        ∃ o ∈ outs, o.task.Procedure = p ∧ (mkProcLog o).Status = "FAIL") ∧
      (s.Status ≠ "FAIL" → s.Status = "SUCCESS") ∧
      (s.Status = "FAIL" → ∀ more : List Outcome,
        ∃ s', summarize (outs ++ more) p = some s' ∧ s'.Status = "FAIL") := by
  obtain ⟨s, hs⟩ := summarize_some outs p hp
  have h := summarize_entryOk outs p
  rw [hs] at h
  obtain ⟨-, -, -, -, -, hst, hcases⟩ := h
  refine ⟨s, hs, hst, ?_, ?_⟩
  · intro hne
    rcases hcases with h | h
    · exact absurd h hne
    · exact h
  · intro hf more
    obtain ⟨o, ho, hop, hof⟩ := hst.1 hf
    obtain ⟨s', hs'⟩ := summarize_some (outs ++ more) p ⟨o, List.mem_append_left _ ho, hop⟩
    have h' := summarize_entryOk (outs ++ more) p
    rw [hs'] at h'
    exact ⟨s', hs', h'.2.2.2.2.2.1.2 ⟨o, List.mem_append_left _ ho, hop, hof⟩⟩

theorem summary_status_fail_iff_witness :
    ∃ s, summarize [⟨⟨"A", "P1"⟩, 5, 9, none⟩, ⟨⟨"B", "P1"⟩, 3, 7, some "boom"⟩,
        ⟨⟨"C", "P1"⟩, 8, 12, none⟩] "P1" = some s ∧
      (s.Status = "FAIL" ↔
        ∃ o ∈ [(⟨⟨"A", "P1"⟩, 5, 9, none⟩ : Outcome), ⟨⟨"B", "P1"⟩, 3, 7, some "boom"⟩,
          ⟨⟨"C", "P1"⟩, 8, 12, none⟩], o.task.Procedure = "P1" ∧ (mkProcLog o).Status = "FAIL") ∧
      (s.Status ≠ "FAIL" → s.Status = "SUCCESS") ∧
      (s.Status = "FAIL" → ∀ more : List Outcome,
        ∃ s', summarize ([⟨⟨"A", "P1"⟩, 5, 9, none⟩, ⟨⟨"B", "P1"⟩, 3, 7, some "boom"⟩,
          ⟨⟨"C", "P1"⟩, 8, 12, none⟩] ++ more) "P1" = some s' ∧ s'.Status = "FAIL") :=
  summary_status_fail_iff _ "P1" ⟨⟨⟨"A", "P1"⟩, 5, 9, none⟩, by simp, rfl⟩

theorem int_min?_eq_some_iff (xs : List Int) (a : Int) :
    xs.min? = some a ↔ a ∈ xs ∧ ∀ b ∈ xs, a ≤ b := by
  haveI : Std.Antisymm (fun x1 x2 : Int => x1 ≤ x2) := ⟨fun h1 h2 => le_antisymm h1 h2⟩
  apply List.min?_eq_some_iff
  · intro x; exact le_refl x
  · intro x y; rcases le_total x y with h | h
    · left; exact min_eq_left h
    · right; exact min_eq_right h
  · intro x y z; exact le_min_iff

theorem int_max?_eq_some_iff (xs : List Int) (a : Int) :
    xs.max? = some a ↔ a ∈ xs ∧ ∀ b ∈ xs, b ≤ a := by
  haveI : Std.Antisymm (fun x1 x2 : Int => x1 ≤ x2) := ⟨fun h1 h2 => le_antisymm h1 h2⟩
  apply List.max?_eq_some_iff
  · intro x; exact le_refl x
  · intro x y; rcases le_total x y with h | h
    · right; exact max_eq_right h
    · left; exact max_eq_left h
  · intro x y z; exact max_le_iff

theorem summarize_times (outs : List Outcome) (p : String) (s : ProcSummary)
    (hs : summarize outs p = some s) :
    ((outcomesOf p outs).map (fun o => o.start)).min? = some s.StartTime ∧
    ((outcomesOf p outs).map (fun o => o.stop)).max? = some s.EndTime := by
  have h := summarize_entryOk outs p
  rw [hs] at h
  obtain ⟨-, ⟨a, ha, hap, hast⟩, hmin, ⟨b, hb, hbp, hbst⟩, hmax, -, -⟩ := h
  constructor
  · rw [int_min?_eq_some_iff]
    constructor
    · simp only [List.mem_map, outcomesOf, List.mem_filter, decide_eq_true_eq]
      exact ⟨a, ⟨ha, hap⟩, hast⟩
    · intro x hx
      simp only [List.mem_map, outcomesOf, List.mem_filter, decide_eq_true_eq] at hx
      obtain ⟨o, ⟨ho, hop⟩, rfl⟩ := hx
      exact hmin o ho hop
  · rw [int_max?_eq_some_iff]
    constructor
    · simp only [List.mem_map, outcomesOf, List.mem_filter, decide_eq_true_eq]
      exact ⟨b, ⟨hb, hbp⟩, hbst⟩
    · intro x hx
      simp only [List.mem_map, outcomesOf, List.mem_filter, decide_eq_true_eq] at hx
      obtain ⟨o, ⟨ho, hop⟩, rfl⟩ := hx
      exact hmax o ho hop

/-- Three outcomes of `P1`, the second failed: the entry spans 3 to 12 and is FAIL. -/
theorem summarize_sample :
    summarize [⟨⟨"A", "P1"⟩, 5, 9, none⟩, ⟨⟨"B", "P1"⟩, 3, 7, some "boom"⟩,
        ⟨⟨"C", "P1"⟩, 8, 12, none⟩] "P1" = some ⟨"P1", 3, 12, "FAIL"⟩ := by
  decide

/-- C2: folding the worker's summary update over any sequence of outcomes, the entry of a
procedure with at least one outcome has as StartTime the least start and as EndTime the greatest
end among that procedure's outcomes, and both are the same for every reordering of the
sequence. -/
theorem summary_times_min_max (outs : List Outcome) (p : String)
    (hp : ∃ o ∈ outs, o.task.Procedure = p) :
    ∃ s, summarize outs p = some s ∧
      ((outcomesOf p outs).map (fun o => o.start)).min? = some s.StartTime ∧
      ((outcomesOf p outs).map (fun o => o.stop)).max? = some s.EndTime ∧
      (∀ o ∈ outs, o.task.Procedure = p → s.StartTime ≤ o.start ∧ o.stop ≤ s.EndTime) ∧
      (∀ outs' : List Outcome, outs'.Perm outs →
        ∃ s', summarize outs' p = some s' ∧
          s'.StartTime = s.StartTime ∧ s'.EndTime = s.EndTime) := by
  obtain ⟨s, hs⟩ := summarize_some outs p hp
  have h := summarize_entryOk outs p
  rw [hs] at h
  obtain ⟨-, ⟨a, ha, hap, hast⟩, hmin, ⟨b, hb, hbp, hbst⟩, hmax, -, -⟩ := h
  refine ⟨s, hs, (summarize_times outs p s hs).1, (summarize_times outs p s hs).2,
    fun o ho hop => ⟨hmin o ho hop, hmax o ho hop⟩, ?_⟩
  intro outs' hperm
  obtain ⟨o, ho, hop⟩ := hp
  obtain ⟨s', hs'⟩ := summarize_some outs' p ⟨o, hperm.mem_iff.2 ho, hop⟩
  have h' := summarize_entryOk outs' p
  rw [hs'] at h'
  obtain ⟨-, ⟨a', ha', hap', hast'⟩, hmin', ⟨b', hb', hbp', hbst'⟩, hmax', -, -⟩ := h'
  refine ⟨s', hs', ?_, ?_⟩
  · have h1 := hmin a' (hperm.mem_iff.1 ha') hap'
    have h2 := hmin' a (hperm.mem_iff.2 ha) hap
    omega
  · have h1 := hmax b' (hperm.mem_iff.1 hb') hbp'
    have h2 := hmax' b (hperm.mem_iff.2 hb) hbp
    omega

theorem summary_times_min_max_witness :
    ∃ s, summarize [⟨⟨"A", "P1"⟩, 5, 9, none⟩, ⟨⟨"B", "P1"⟩, 3, 7, some "boom"⟩,
        ⟨⟨"A", "P2"⟩, 1, 20, none⟩] "P1" = some s ∧
      ((outcomesOf "P1" [⟨⟨"A", "P1"⟩, 5, 9, none⟩, ⟨⟨"B", "P1"⟩, 3, 7, some "boom"⟩,
        ⟨⟨"A", "P2"⟩, 1, 20, none⟩]).map (fun o => o.start)).min? = some s.StartTime ∧
      ((outcomesOf "P1" [⟨⟨"A", "P1"⟩, 5, 9, none⟩, ⟨⟨"B", "P1"⟩, 3, 7, some "boom"⟩,
        ⟨⟨"A", "P2"⟩, 1, 20, none⟩]).map (fun o => o.stop)).max? = some s.EndTime ∧
      (∀ o ∈ [(⟨⟨"A", "P1"⟩, 5, 9, none⟩ : Outcome), ⟨⟨"B", "P1"⟩, 3, 7, some "boom"⟩,
        ⟨⟨"A", "P2"⟩, 1, 20, none⟩],
        o.task.Procedure = "P1" → s.StartTime ≤ o.start ∧ o.stop ≤ s.EndTime) ∧
      (∀ outs' : List Outcome,
        outs'.Perm [⟨⟨"A", "P1"⟩, 5, 9, none⟩, ⟨⟨"B", "P1"⟩, 3, 7, some "boom"⟩,
          ⟨⟨"A", "P2"⟩, 1, 20, none⟩] →
        ∃ s', summarize outs' "P1" = some s' ∧
          s'.StartTime = s.StartTime ∧ s'.EndTime = s.EndTime) :=
  summary_times_min_max _ "P1" ⟨⟨⟨"A", "P1"⟩, 5, 9, none⟩, by simp, rfl⟩

/-! ## The pool invariant -/

theorem initPool_eq (c : Int) (hc : 0 ≤ c) :
    initPool c = some ⟨2, c, 2, [0, 1], 2, []⟩ := by
  have h : ¬ c < 0 := by omega
  simp [initPool, h, Pool.spawn, List.range, List.range.loop]

theorem initPool_none (c : Int) (hc : c < 0) : initPool c = none := by
  simp [initPool, hc]

theorem initPool_ok (c : Int) (s : Pool) (h : initPool c = some s) :
    PoolOk s ∧ s.maxWorkers = c := by
  by_cases hc : c < 0
  · rw [initPool_none c hc] at h; exact absurd h (by simp)
  · rw [initPool_eq c (by omega)] at h
    injection h with h
    subst h
    refine ⟨?_, rfl⟩
    simp [PoolOk]

/-- The effect of a tick that scales down, in a state where the handles and the count agree. -/
theorem managerTick_down (s : Pool) (qlen : Nat) (hlen : (s.workerCancels.length : Int) = s.workerCount)
    (hq : (qlen : Int) < 5) (hw : s.workerCount > s.minWorkers) (hmin : 0 ≤ s.minWorkers) :
    ∃ rest wcancel, s.workerCancels = rest ++ [wcancel] ∧
      managerTick s qlen = some { s with raised := s.raised ++ [wcancel],
                                         workerCancels := rest,
                                         workerCount := s.workerCount - 1 } := by
  have hne : s.workerCancels ≠ [] := by
    intro h; rw [h] at hlen; simp at hlen; omega
  obtain ⟨rest, wcancel, hrw⟩ : ∃ rest wcancel, s.workerCancels = rest ++ [wcancel] :=
    ⟨s.workerCancels.dropLast, s.workerCancels.getLast hne,
      (List.dropLast_append_getLast hne).symm⟩
  refine ⟨rest, wcancel, hrw, ?_⟩
  have hup : ¬ ((qlen : Int) > 20 ∧ s.workerCount < s.maxWorkers) := by omega
  have hidx : (s.workerCount - 1).toNat = rest.length := by
    rw [hrw] at hlen; simp at hlen; omega
  have h0 : 0 ≤ s.workerCount - 1 := by omega
  simp only [managerTick, hup, if_false, hq, hw, and_self, if_true, h0, hidx]
  rw [hrw]
  simp

theorem managerTick_ok (s : Pool) (qlen : Nat) (h : PoolOk s) :
    ∃ s', managerTick s qlen = some s' ∧ PoolOk s' ∧ s'.maxWorkers = s.maxWorkers := by
  obtain ⟨hmin, hlen, h2, hmax, hsorted, hcan, hrai, hnd, hdisj⟩ := h
  by_cases hup : (qlen : Int) > 20 ∧ s.workerCount < s.maxWorkers
  · refine ⟨{ s.spawn with workerCount := s.workerCount + 1 },
      by simp only [managerTick, hup, and_self, if_true], ?_, rfl⟩
    refine ⟨hmin, ?_, ?_, ?_, ?_, ?_, ?_, hnd, ?_⟩
    · simp [Pool.spawn]; omega
    · simp [Pool.spawn]; omega
    · intro _; simp [Pool.spawn]; omega
    · simp only [Pool.spawn, List.pairwise_append]
      refine ⟨hsorted, by simp, ?_⟩
      intro a ha b hb
      simp at hb; subst hb; exact hcan a ha
    · intro a ha
      simp only [Pool.spawn, List.mem_append, List.mem_singleton] at ha ⊢
      rcases ha with ha | ha
      · have := hcan a ha; omega
      · omega
    · intro a ha
      simp only [Pool.spawn] at ha ⊢
      have := hrai a ha; omega
    · intro a ha
      simp only [Pool.spawn, List.mem_append, List.mem_singleton, not_or] at ha ⊢
      exact ⟨hdisj a ha, by have := hrai a ha; omega⟩
  · by_cases hdown : (qlen : Int) < 5 ∧ s.workerCount > s.minWorkers
    · obtain ⟨rest, wcancel, hrw, htick⟩ :=
        managerTick_down s qlen hlen hdown.1 hdown.2 (by omega)
      refine ⟨_, htick, ?_, rfl⟩
      rw [hrw] at hlen hsorted hcan hdisj
      simp only [List.pairwise_append] at hsorted
      refine ⟨hmin, ?_, ?_, ?_, hsorted.1, ?_, ?_, ?_, ?_⟩
      · simp at hlen ⊢; omega
      · simp only; omega
      · intro hm; have := hmax hm; simp only; omega
      · intro a ha; exact hcan a (List.mem_append_left _ ha)
      · intro a ha
        simp only [List.mem_append, List.mem_singleton] at ha
        rcases ha with ha | ha
        · exact hrai a ha
        · subst ha; exact hcan a (by simp)
      · simp only
        rw [List.nodup_append]
        refine ⟨hnd, by simp, ?_⟩
        intro a ha hb
        simp at hb; subst hb
        exact hdisj a ha (by simp)
      · intro a ha
        simp only [List.mem_append, List.mem_singleton] at ha
        rcases ha with ha | ha
        · intro hr; exact hdisj a ha (List.mem_append_left _ hr)
        · subst ha
          intro hr
          have := hsorted.2.2 a hr a (by simp)
          omega
    · refine ⟨s, by simp only [managerTick, hup, hdown, if_false], ?_, rfl⟩
      exact ⟨hmin, hlen, h2, hmax, hsorted, hcan, hrai, hnd, hdisj⟩

theorem runTicks_ok (qlens : List Nat) (s : Pool) (h : PoolOk s) :
    ∃ s', runTicks s qlens = some s' ∧ PoolOk s' ∧ s'.maxWorkers = s.maxWorkers := by
  induction qlens generalizing s with
  | nil => exact ⟨s, rfl, h, rfl⟩
  | cons q rest ih =>
    obtain ⟨s1, h1, hok1, hm1⟩ := managerTick_ok s q h
    obtain ⟨s2, h2, hok2, hm2⟩ := ih s1 hok1
    exact ⟨s2, by simp only [runTicks, h1, h2], hok2, by rw [hm2, hm1]⟩

theorem poolAfter_ok (c : Int) (hc : 0 ≤ c) (qlens : List Nat) :
    ∃ s, poolAfter c qlens = some s ∧ PoolOk s ∧ s.maxWorkers = c := by
  have hi := initPool_eq c hc
  obtain ⟨hok, hm⟩ := initPool_ok c _ hi
  obtain ⟨s, hs, hoks, hms⟩ := runTicks_ok qlens _ hok
  exact ⟨s, by simp only [poolAfter, hi, hs], hoks, by rw [hms, hm]⟩

theorem poolAfter_some_ok (c : Int) (qlens : List Nat) (s : Pool)
    (h : poolAfter c qlens = some s) : PoolOk s ∧ s.maxWorkers = c := by
  by_cases hc : c < 0
  · simp [poolAfter, initPool_none c hc] at h
  · obtain ⟨s', hs', hok, hm⟩ := poolAfter_ok c (by omega) qlens
    rw [hs'] at h; injection h with h; subst h
    exact ⟨hok, hm⟩

/-! ## Claims about the pool -/

/-- C3 (as stated, refuted): with `appCfg.Concurrency = 1` the initial state already has
`workerCount = 2 > maxWorkers = 1`. -/
theorem pool_bounds_fail_concurrency_one :
    poolAfter 1 [] = some ⟨2, 1, 2, [0, 1], 2, []⟩ ∧
    ¬ ((⟨2, 1, 2, [0, 1], 2, []⟩ : Pool).minWorkers ≤ (⟨2, 1, 2, [0, 1], 2, []⟩ : Pool).workerCount ∧
       (⟨2, 1, 2, [0, 1], 2, []⟩ : Pool).workerCount ≤ (⟨2, 1, 2, [0, 1], 2, []⟩ : Pool).maxWorkers) := by
  decide

/-- C3 (amended): for every `appCfg.Concurrency` of at least 2 and every sequence of queue
lengths, the pool reaches a state (no tick panics), in which `minWorkers = 2`,
`maxWorkers = appCfg.Concurrency` and `minWorkers ≤ workerCount ≤ maxWorkers`; the empty
sequence is the initial state, every other one the state after a tick. -/
theorem pool_bounds (concurrency : Int) (hc : 2 ≤ concurrency) (qlens : List Nat) :
    ∃ s, poolAfter concurrency qlens = some s ∧
      s.minWorkers = 2 ∧ s.maxWorkers = concurrency ∧
      s.minWorkers ≤ s.workerCount ∧ s.workerCount ≤ s.maxWorkers := by
  obtain ⟨s, hs, hok, hm⟩ := poolAfter_ok concurrency (by omega) qlens
  obtain ⟨hmin, -, h2, hmax, -⟩ := hok
  exact ⟨s, hs, hmin, hm, by omega, hmax (by omega)⟩

theorem pool_bounds_witness :
    ∃ s, poolAfter 4 [30, 30, 30, 10, 0, 0, 0] = some s ∧
      s.minWorkers = 2 ∧ s.maxWorkers = 4 ∧
      s.minWorkers ≤ s.workerCount ∧ s.workerCount ≤ s.maxWorkers :=
  pool_bounds 4 (by decide) [30, 30, 30, 10, 0, 0, 0]

/-- C9: in every state the pool reaches, a manager tick does not panic and is one scale event:
`workerCount` becomes `workerCount + 1` exactly when `qlen > 20` and `workerCount < maxWorkers`,
becomes `workerCount - 1` exactly when that fails and `qlen < 5` and `workerCount > minWorkers`,
and otherwise, in particular for `5 ≤ qlen ≤ 20`, the state (`workerCount`, `workerCancels` and
the rest) is unchanged; so `workerCount` changes by at most one. -/
theorem tick_single_scale_event (concurrency : Int) (qlens : List Nat) (s : Pool) (qlen : Nat)
    (hs : poolAfter concurrency qlens = some s) :
    ∃ s', managerTick s qlen = some s' ∧
      (s'.workerCount = s.workerCount + 1 ↔ (qlen > 20 ∧ s.workerCount < s.maxWorkers)) ∧
      (s'.workerCount = s.workerCount - 1 ↔
        (¬ (qlen > 20 ∧ s.workerCount < s.maxWorkers) ∧ qlen < 5 ∧
          s.workerCount > s.minWorkers)) ∧
      (¬ (qlen > 20 ∧ s.workerCount < s.maxWorkers) →
        ¬ (qlen < 5 ∧ s.workerCount > s.minWorkers) → s' = s) ∧
      (5 ≤ qlen → qlen ≤ 20 → s' = s) ∧
      s.workerCount - 1 ≤ s'.workerCount ∧ s'.workerCount ≤ s.workerCount + 1 := by
  obtain ⟨hok, -⟩ := poolAfter_some_ok concurrency qlens s hs
  obtain ⟨hmin, hlen, h2, -⟩ := hok
  by_cases hup : (qlen : Int) > 20 ∧ s.workerCount < s.maxWorkers
  · have hup' : qlen > 20 ∧ s.workerCount < s.maxWorkers := ⟨by omega, hup.2⟩
    refine ⟨{ s.spawn with workerCount := s.workerCount + 1 },
      by simp only [managerTick, hup, and_self, if_true], ?_, ?_, ?_, ?_, ?_, ?_⟩
    · simp only [true_iff]; exact hup'
    · simp only; constructor
      · intro h; omega
      · intro h; exact absurd hup' h.1
    · intro h; exact absurd hup' h
    · intro h5 h20; omega
    · simp only; omega
    · simp only; omega
  · have hup' : ¬ (qlen > 20 ∧ s.workerCount < s.maxWorkers) := by
      intro h; exact hup ⟨by omega, h.2⟩
    by_cases hdown : (qlen : Int) < 5 ∧ s.workerCount > s.minWorkers
    · have hdown' : qlen < 5 ∧ s.workerCount > s.minWorkers := ⟨by omega, hdown.2⟩
      obtain ⟨rest, wcancel, -, htick⟩ :=
        managerTick_down s qlen hlen hdown.1 hdown.2 (by omega)
      refine ⟨_, htick, ?_, ?_, ?_, ?_, ?_, ?_⟩
      · simp only; constructor
        · intro h; omega
        · intro h; exact absurd h hup'
      · simp only [true_iff]; exact ⟨hup', hdown'⟩
      · intro _ h; exact absurd hdown' h
      · intro h5 h20; omega
      · simp only; omega
      · simp only; omega
    · have hdown' : ¬ (qlen < 5 ∧ s.workerCount > s.minWorkers) := by
        intro h; exact hdown ⟨by omega, h.2⟩
      refine ⟨s, by simp only [managerTick, hup, hdown, if_false], ?_, ?_, ?_, ?_, ?_, ?_⟩
      · constructor
        · intro h; omega
        · intro h; exact absurd h hup'
      · constructor
        · intro h; omega
        · intro h; exact absurd h.2 hdown'
      · intro _ _; rfl
      · intro _ _; rfl
      · omega
      · omega

theorem tick_single_scale_event_witness :
    poolAfter 4 [30] = some ⟨2, 4, 3, [0, 1, 2], 3, []⟩ ∧
    ∃ s', managerTick ⟨2, 4, 3, [0, 1, 2], 3, []⟩ 3 = some s' ∧
      (s'.workerCount = (⟨2, 4, 3, [0, 1, 2], 3, []⟩ : Pool).workerCount + 1 ↔
        (3 > 20 ∧ (⟨2, 4, 3, [0, 1, 2], 3, []⟩ : Pool).workerCount <
          (⟨2, 4, 3, [0, 1, 2], 3, []⟩ : Pool).maxWorkers)) ∧
      (s'.workerCount = (⟨2, 4, 3, [0, 1, 2], 3, []⟩ : Pool).workerCount - 1 ↔
        (¬ (3 > 20 ∧ (⟨2, 4, 3, [0, 1, 2], 3, []⟩ : Pool).workerCount <
          (⟨2, 4, 3, [0, 1, 2], 3, []⟩ : Pool).maxWorkers) ∧ 3 < 5 ∧
          (⟨2, 4, 3, [0, 1, 2], 3, []⟩ : Pool).workerCount >
            (⟨2, 4, 3, [0, 1, 2], 3, []⟩ : Pool).minWorkers)) ∧
      (¬ (3 > 20 ∧ (⟨2, 4, 3, [0, 1, 2], 3, []⟩ : Pool).workerCount <
          (⟨2, 4, 3, [0, 1, 2], 3, []⟩ : Pool).maxWorkers) →
        ¬ (3 < 5 ∧ (⟨2, 4, 3, [0, 1, 2], 3, []⟩ : Pool).workerCount >
          (⟨2, 4, 3, [0, 1, 2], 3, []⟩ : Pool).minWorkers) →
        s' = ⟨2, 4, 3, [0, 1, 2], 3, []⟩) ∧
      (5 ≤ 3 → 3 ≤ 20 → s' = ⟨2, 4, 3, [0, 1, 2], 3, []⟩) ∧
      (⟨2, 4, 3, [0, 1, 2], 3, []⟩ : Pool).workerCount - 1 ≤ s'.workerCount ∧
      s'.workerCount ≤ (⟨2, 4, 3, [0, 1, 2], 3, []⟩ : Pool).workerCount + 1 :=
  ⟨by decide, tick_single_scale_event 4 [30] ⟨2, 4, 3, [0, 1, 2], 3, []⟩ 3 (by decide)⟩

/-- C10: in every state the pool reaches, `len(workerCancels) = workerCount`; so a tick that
scales down does not panic, the handle it raises is the last element of `workerCancels`, which
is newer than every handle left in the pool, it was not raised before, it is removed from
`workerCancels` (which loses nothing else), and no handle is ever raised twice. -/
theorem scale_down_lifo (concurrency : Int) (qlens : List Nat) (s : Pool)
    (hs : poolAfter concurrency qlens = some s) :
    (s.workerCancels.length : Int) = s.workerCount ∧ s.raised.Nodup ∧
    ∀ qlen : Nat, qlen < 5 → s.workerCount > s.minWorkers →
      0 ≤ s.workerCount - 1 ∧ (s.workerCount - 1).toNat < s.workerCancels.length ∧
      ∃ rest wcancel, s.workerCancels = rest ++ [wcancel] ∧
        (∀ h ∈ rest, h < wcancel) ∧ wcancel ∉ rest ∧ wcancel ∉ s.raised ∧
        managerTick s qlen = some { s with raised := s.raised ++ [wcancel],
                                           workerCancels := rest,
                                           workerCount := s.workerCount - 1 } := by
  obtain ⟨hok, -⟩ := poolAfter_some_ok concurrency qlens s hs
  obtain ⟨hmin, hlen, h2, -, hsorted, -, -, hnd, hdisj⟩ := hok
  refine ⟨hlen, hnd, ?_⟩
  intro qlen hq hw
  obtain ⟨rest, wcancel, hrw, htick⟩ :=
    managerTick_down s qlen hlen (by omega) hw (by omega)
  refine ⟨by omega, by omega, rest, wcancel, hrw, ?_, ?_, ?_, htick⟩
  · rw [hrw, List.pairwise_append] at hsorted
    intro h hh
    exact hsorted.2.2 h hh wcancel (by simp)
  · rw [hrw, List.pairwise_append] at hsorted
    intro hh
    have := hsorted.2.2 wcancel hh wcancel (by simp)
    omega
  · intro hr
    exact hdisj wcancel hr (by rw [hrw]; simp)

theorem scale_down_lifo_witness :
    ((⟨2, 4, 4, [0, 1, 2, 3], 4, []⟩ : Pool).workerCancels.length : Int) =
      (⟨2, 4, 4, [0, 1, 2, 3], 4, []⟩ : Pool).workerCount ∧
    (⟨2, 4, 4, [0, 1, 2, 3], 4, []⟩ : Pool).raised.Nodup ∧
    ∀ qlen : Nat, qlen < 5 →
      (⟨2, 4, 4, [0, 1, 2, 3], 4, []⟩ : Pool).workerCount >
        (⟨2, 4, 4, [0, 1, 2, 3], 4, []⟩ : Pool).minWorkers →
      0 ≤ (⟨2, 4, 4, [0, 1, 2, 3], 4, []⟩ : Pool).workerCount - 1 ∧
      ((⟨2, 4, 4, [0, 1, 2, 3], 4, []⟩ : Pool).workerCount - 1).toNat <
        (⟨2, 4, 4, [0, 1, 2, 3], 4, []⟩ : Pool).workerCancels.length ∧
      ∃ rest wcancel, (⟨2, 4, 4, [0, 1, 2, 3], 4, []⟩ : Pool).workerCancels = rest ++ [wcancel] ∧
        (∀ h ∈ rest, h < wcancel) ∧ wcancel ∉ rest ∧
        wcancel ∉ (⟨2, 4, 4, [0, 1, 2, 3], 4, []⟩ : Pool).raised ∧
        managerTick ⟨2, 4, 4, [0, 1, 2, 3], 4, []⟩ qlen =
          some { (⟨2, 4, 4, [0, 1, 2, 3], 4, []⟩ : Pool) with
                 raised := (⟨2, 4, 4, [0, 1, 2, 3], 4, []⟩ : Pool).raised ++ [wcancel],
                 workerCancels := rest,
                 workerCount := (⟨2, 4, 4, [0, 1, 2, 3], 4, []⟩ : Pool).workerCount - 1 } :=
  scale_down_lifo 4 [30, 30] ⟨2, 4, 4, [0, 1, 2, 3], 4, []⟩ (by decide)

/-- A run of the pool with `appCfg.Concurrency = 4`: three ticks scale up to the ceiling, one
leaves the pool alone, three scale down to the floor, raising the newest handle first. -/
theorem poolAfter_sample :
    poolAfter 4 [30, 30, 30, 10, 0, 0, 0] = some ⟨2, 4, 2, [0, 1], 4, [3, 2]⟩ := by
  decide

/-! ## The task list -/

theorem inner_loop_eq (sol : String) (procedures : List String) (acc : List Task) :
    procedures.foldl (fun tasksList proc => tasksList ++ [{ SolID := sol, Procedure := proc }])
      acc = acc ++ procedures.map (fun proc => ({ SolID := sol, Procedure := proc } : Task)) := by
  induction procedures generalizing acc with
  | nil => simp
  | cons p rest ih => simp [List.foldl_cons, ih]

theorem outer_loop_eq (sols procedures : List String) (acc : List Task) :
    sols.foldl
      (fun tasksList sol =>
        procedures.foldl
          (fun tasksList proc => tasksList ++ [{ SolID := sol, Procedure := proc }])
          tasksList)
      acc
    = acc ++ sols.flatMap (fun sol =>
        procedures.map (fun proc => ({ SolID := sol, Procedure := proc } : Task))) := by
  induction sols generalizing acc with
  | nil => simp
  | cons s rest ih =>
    rw [List.foldl_cons, ih, inner_loop_eq, List.flatMap_cons, List.append_assoc]

theorem buildTasksList_eq (sols procedures : List String) :
    buildTasksList sols procedures =
      sols.flatMap (fun sol =>
        procedures.map (fun proc => ({ SolID := sol, Procedure := proc } : Task))) := by
  simp [buildTasksList, outer_loop_eq]

theorem buildTasksList_cons (sol : String) (sols procedures : List String) :
    buildTasksList (sol :: sols) procedures =
      procedures.map (fun proc => ({ SolID := sol, Procedure := proc } : Task)) ++
        buildTasksList sols procedures := by
  simp [buildTasksList_eq, List.flatMap_cons]

theorem buildTasksList_length (sols procedures : List String) :
    (buildTasksList sols procedures).length = sols.length * procedures.length := by
  induction sols with
  | nil => simp [buildTasksList]
  | cons s rest ih =>
    rw [buildTasksList_cons, List.length_append, List.length_map, ih, List.length_cons]
    ring

theorem buildTasksList_getElem? (sols procedures : List String) (i j : Nat)
    (hi : i < sols.length) (hj : j < procedures.length) :
    (buildTasksList sols procedures)[i * procedures.length + j]? =
      some { SolID := sols[i], Procedure := procedures[j] } := by
  induction sols generalizing i with
  | nil => simp at hi
  | cons s rest ih =>
    rw [buildTasksList_cons]
    cases i with
    | zero =>
      rw [List.getElem?_append_left (by simpa using hj)]
      simp [hj]
    | succ i =>
      have hi' : i < rest.length := by simpa using hi
      rw [List.getElem?_append_right (by simp; nlinarith)]
      have : (i + 1) * procedures.length + j - (List.map (fun proc => ({ SolID := s, Procedure := proc } : Task)) procedures).length
          = i * procedures.length + j := by
        simp only [List.length_map]
        rw [Nat.add_mul, Nat.one_mul]
        omega
      rw [this, ih i hi']
      simp

/-- C4: the task list built from SOLs `S` and procedures `P` has `|S| * |P|` elements, its
element at index `i * |P| + j` is `Task{SolID: S[i], Procedure: P[j]}` for all `i < |S|` and
`j < |P|`, and it is empty when `S` or `P` is empty. -/
theorem tasksList_product (sols procedures : List String) :
    (buildTasksList sols procedures).length = sols.length * procedures.length ∧
    (∀ (i j : Nat) (hi : i < sols.length) (hj : j < procedures.length),
      (buildTasksList sols procedures)[i * procedures.length + j]? =
        some { SolID := sols[i], Procedure := procedures[j] }) ∧
    (sols = [] ∨ procedures = [] → buildTasksList sols procedures = []) := by
  refine ⟨buildTasksList_length sols procedures,
    fun i j hi hj => buildTasksList_getElem? sols procedures i j hi hj, ?_⟩
  intro h
  apply List.eq_nil_of_length_eq_zero
  rw [buildTasksList_length]
  rcases h with h | h <;> simp [h]

/-- Two SOLs and three procedures give six tasks, SOL by SOL. -/
theorem buildTasksList_sample :
    buildTasksList ["A", "B"] ["P1", "P2", "P3"] =
      [⟨"A", "P1"⟩, ⟨"A", "P2"⟩, ⟨"A", "P3"⟩, ⟨"B", "P1"⟩, ⟨"B", "P2"⟩, ⟨"B", "P3"⟩] := by
  decide

theorem tasksList_product_witness :
    (buildTasksList ["A", "B"] ["P1", "P2", "P3"])[1 * 3 + 2]? = some ⟨"B", "P3"⟩ :=
  (tasksList_product ["A", "B"] ["P1", "P2", "P3"]).2.1 1 2 (by decide) (by decide)

/-! ## The split path -/

theorem push_keys (g : RowGroups) (k : String) (r : List String) :
    (g.push k r).map Prod.fst =
      if k ∈ g.map Prod.fst then g.map Prod.fst else g.map Prod.fst ++ [k] := by
  induction g with
  | nil => simp [RowGroups.push]
  | cons e rest ih =>
    obtain ⟨k0, v0⟩ := e
    by_cases h : k0 = k
    · subst h; simp [RowGroups.push]
    · have h' : ¬ k = k0 := fun h' => h h'.symm
      simp only [RowGroups.push, h, if_false, List.map_cons, ih, List.mem_cons, h', false_or]
      split_ifs <;> simp

theorem push_groupedRows (g : RowGroups) (k : String) (r : List String) :
    (groupedRows (g.push k r)).Perm (r :: groupedRows g) := by
  induction g with
  | nil => simp [RowGroups.push, groupedRows]
  | cons e rest ih =>
    obtain ⟨k0, v0⟩ := e
    by_cases h : k0 = k
    · subst h
      simp [RowGroups.push, groupedRows]
    · simp only [RowGroups.push, h, if_false, groupedRows, List.flatMap_cons]
      have h1 : (v0 ++ groupedRows (RowGroups.push rest k r)).Perm (v0 ++ (r :: groupedRows rest)) :=
        List.Perm.append_left _ ih
      exact h1.trans List.perm_middle

theorem push_rows (κ : List String → String) (F : String → List (List String))
    (g : RowGroups) (r : List String)
    (hnd : (g.map Prod.fst).Nodup) (hF : ∀ e ∈ g, e.2 = F e.1)
    (hnew : κ r ∉ g.map Prod.fst → F (κ r) = []) :
    ∀ e ∈ g.push (κ r) r, e.2 = if e.1 = κ r then F e.1 ++ [r] else F e.1 := by
  induction g with
  | nil =>
    intro e he
    simp only [RowGroups.push, List.mem_singleton] at he
    subst he
    simp [hnew (by simp)]
  | cons e0 rest ih =>
    obtain ⟨k0, v0⟩ := e0
    simp only [List.map_cons, List.nodup_cons] at hnd
    by_cases h : k0 = κ r
    · intro e he
      simp only [RowGroups.push, h, if_true, List.mem_cons] at he
      rcases he with he | he
      · subst he
        have := hF (k0, v0) (by simp)
        simp only at this
        simp [this, h]
      · have hne : e.1 ≠ κ r := by
          intro hc
          apply hnd.1
          rw [h, ← hc]
          exact List.mem_map_of_mem _ he
        simp only [hne, if_false]
        exact hF e (List.mem_cons_of_mem _ he)
    · intro e he
      simp only [RowGroups.push, h, if_false, List.mem_cons] at he
      rcases he with he | he
      · subst he
        simp only [h, if_false]
        exact hF (k0, v0) (by simp)
      · refine ih hnd.2 (fun e he => hF e (List.mem_cons_of_mem _ he)) ?_ e he
        intro hnot
        apply hnew
        simp only [List.map_cons, List.mem_cons, not_or]
        exact ⟨fun hc => h hc.symm, hnot⟩

/-- The groups after pushing the rows `rs`, each under its key `κ`. -/
theorem pushAll_inv (κ : List String → String) (rs : List (List String)) :
    let g := rs.foldl (fun (g : RowGroups) r => g.push (κ r) r) []
    (g.map Prod.fst).Nodup ∧
    (∀ k, k ∈ g.map Prod.fst ↔ ∃ r ∈ rs, κ r = k) ∧
    (∀ e ∈ g, e.2 = rs.filter (fun r => κ r = e.1)) ∧
    (groupedRows g).Perm rs := by
  induction rs using List.reverseRecOn with
  | nil => simp [groupedRows]
  | append_singleton rs r ih =>
    simp only [List.foldl_append, List.foldl_cons, List.foldl_nil]
    obtain ⟨hnd, hkeys, hrows, hperm⟩ := ih
    generalize rs.foldl (fun (g : RowGroups) r => g.push (κ r) r) [] = g at hnd hkeys hrows hperm
    refine ⟨?_, ?_, ?_, ?_⟩
    · rw [push_keys]
      split_ifs with h
      · exact hnd
      · rw [List.nodup_append]
        refine ⟨hnd, by simp, ?_⟩
        intro a ha hb
        simp at hb; subst hb; exact h ha
    · intro k
      rw [push_keys]
      split_ifs with h
      · rw [hkeys]
        constructor
        · rintro ⟨r', hr', hk⟩; exact ⟨r', List.mem_append_left _ hr', hk⟩
        · rintro ⟨r', hr', hk⟩
          rcases List.mem_append.1 hr' with h' | h'
          · exact ⟨r', h', hk⟩
          · simp at h'; subst h'; subst hk; exact (hkeys _).1 h
      · rw [List.mem_append, hkeys]
        constructor
        · rintro (⟨r', hr', hk⟩ | hk)
          · exact ⟨r', List.mem_append_left _ hr', hk⟩
          · simp at hk; exact ⟨r, by simp, hk.symm⟩
        · rintro ⟨r', hr', hk⟩
          rcases List.mem_append.1 hr' with h' | h'
          · exact Or.inl ⟨r', h', hk⟩
          · simp at h'; subst h'; right; simp [hk]
    · intro e he
      have hnew : κ r ∉ g.map Prod.fst → rs.filter (fun r' => κ r' = κ r) = [] := by
        intro hnot
        rw [List.filter_eq_nil_iff]
        intro r' hr' hk
        simp only [decide_eq_true_eq] at hk
        exact hnot ((hkeys _).2 ⟨r', hr', hk⟩)
      have := push_rows κ (fun k => rs.filter (fun r' => κ r' = k)) g r hnd hrows hnew e he
      rw [this, List.filter_append]
      by_cases hk : e.1 = κ r
      · simp [hk]
      · have hk' : ¬ κ r = e.1 := fun h => hk h.symm
        simp [hk, hk']
    · exact (push_groupedRows g (κ r) r).trans
        ((List.Perm.cons r hperm).trans (List.perm_append_singleton r rs).symm)

theorem scanRow_ok (n : Nat) (row : DbRow) (h : row.length = n) : scanRow n row = .ok row := by
  simp [scanRow, h]

theorem readGroups_ok (cols : List ColumnConfig) (splitCols : List String) (rows : List DbRow)
    (g : RowGroups) (hscan : ∀ r ∈ rows, r.length = cols.length) :
    readGroups cols splitCols rows g =
      .ok ((rows.map strValuesOf).foldl
        (fun (g : RowGroups) r => g.push (groupKeyOf cols splitCols r) r) g) := by
  induction rows generalizing g with
  | nil => rfl
  | cons row rest ih =>
    have h1 := scanRow_ok cols.length row (hscan row (by simp))
    simp only [readGroups, h1, List.map_cons, List.foldl_cons]
    exact ih _ (fun r hr => hscan r (List.mem_cons_of_mem _ hr))

theorem writeGroups_ok (w : World) (dir procName solID : String) (colNames : List String)
    (groups : RowGroups) (files : List SpoolFile) (hcreate : ∀ name, w.Create dir name = none) :
    writeGroups w dir procName solID colNames groups files =
      (none, files ++ groups.map (splitFileOf dir procName solID colNames)) := by
  induction groups generalizing files with
  | nil => simp [writeGroups]
  | cons g rest ih =>
    obtain ⟨k, v⟩ := g
    simp only [writeGroups, hcreate, List.map_cons]
    rw [ih]
    simp [splitFileOf]

theorem splitFileName_inj (procName solID k1 k2 : String)
    (h : splitFileName procName solID k1 = splitFileName procName solID k2) : k1 = k2 := by
  unfold splitFileName at h
  have h' := congrArg String.data h
  simp only [String.data_append] at h'
  have := List.append_cancel_right h'
  have := List.append_cancel_left this
  exact String.ext this

/-- What `extractData` does on the split path when every row scans and every file can be
created. -/
theorem extractData_split_ok (w : World) (ctx : Context) (procName solID : String)
    (cfg : ExtractionConfig) (templates : GoMap (List ColumnConfig))
    (cols : List ColumnConfig) (splitCols : List String) (rows : List DbRow)
    (htmpl : templates procName = some cols)
    (hrule : cfg.SplitRules procName = some splitCols) (hne : splitCols ≠ [])
    (hquery : ∀ query, w.QueryContext ctx query solID = .ok rows)
    (hscan : ∀ r ∈ rows, r.length = cols.length)
    (hcreate : ∀ name, w.Create cfg.SpoolOutputPath name = none) :
    extractData w ctx procName solID cfg templates =
      (none, (w.rangeOrder ((rows.map strValuesOf).foldl
          (fun (g : RowGroups) r => g.push (groupKeyOf cols splitCols r) r) [])).map
        (splitFileOf cfg.SpoolOutputPath procName solID (cols.map (fun col => col.Name)))) := by
  have hlen : splitCols.length > 0 := List.length_pos.2 hne
  simp only [extractData, htmpl, hquery, hrule, Option.getD_some, Option.isSome_some, hlen,
    and_self, if_true, readGroups_ok cols splitCols rows [] hscan]
  rw [writeGroups_ok _ _ _ _ _ _ _ hcreate]
  simp

/-- C5: on the split path, when every row scans and every file can be created, `extractData`
returns nil having written one file per group, under distinct names, each holding the header
and the rows of the group; the groups partition the result set: all their rows together are
the result rows (as many as there are result rows), every result row is in exactly one group,
groups with distinct keys share no row, and each group is the result set filtered by the key,
so in database-return order. -/
theorem split_files_partition (w : World) (ctx : Context) (procName solID : String)
    (cfg : ExtractionConfig) (templates : GoMap (List ColumnConfig))
    (cols : List ColumnConfig) (splitCols : List String) (rows : List DbRow)
    (horder : ∀ g, (w.rangeOrder g).Perm g)
    (htmpl : templates procName = some cols)
    (hrule : cfg.SplitRules procName = some splitCols) (hne : splitCols ≠ [])
    (hquery : ∀ query, w.QueryContext ctx query solID = .ok rows)
    (hscan : ∀ r ∈ rows, r.length = cols.length)
    (hcreate : ∀ name, w.Create cfg.SpoolOutputPath name = none) :
    ∃ groups : RowGroups,
      extractData w ctx procName solID cfg templates =
        (none, groups.map
          (splitFileOf cfg.SpoolOutputPath procName solID (cols.map (fun col => col.Name)))) ∧
      (groups.map Prod.fst).Nodup ∧
      (groups.map (fun g => splitFileName procName solID g.1)).Nodup ∧
      (groupedRows groups).Perm (rows.map strValuesOf) ∧
      (groups.map (fun g => g.2.length)).sum = rows.length ∧
      (∀ r ∈ rows.map strValuesOf, ∃! g, g ∈ groups ∧ r ∈ g.2) ∧
      (∀ g1 ∈ groups, ∀ g2 ∈ groups, g1.1 ≠ g2.1 → ∀ r ∈ g1.2, r ∉ g2.2) ∧
      (∀ g ∈ groups, g.2 =
        (rows.map strValuesOf).filter (fun r => groupKeyOf cols splitCols r = g.1)) ∧
      (∀ g ∈ groups, g.2.Sublist (rows.map strValuesOf)) := by
  have hx := extractData_split_ok w ctx procName solID cfg templates cols splitCols rows
    htmpl hrule hne hquery hscan hcreate
  obtain ⟨hnd, hkeys, hrows, hperm⟩ :=
    pushAll_inv (groupKeyOf cols splitCols) (rows.map strValuesOf)
  generalize (rows.map strValuesOf).foldl
    (fun (g : RowGroups) r => g.push (groupKeyOf cols splitCols r) r) [] = g0
    at hx hnd hkeys hrows hperm
  have hp := horder g0
  have hrows' : ∀ g ∈ w.rangeOrder g0, g.2 =
      (rows.map strValuesOf).filter (fun r => groupKeyOf cols splitCols r = g.1) :=
    fun g hg => hrows g (hp.mem_iff.1 hg)
  have hnd' : ((w.rangeOrder g0).map Prod.fst).Nodup := (hp.map Prod.fst).nodup_iff.2 hnd
  have hperm' : (groupedRows (w.rangeOrder g0)).Perm (rows.map strValuesOf) :=
    (List.Perm.flatMap_right _ hp).trans hperm
  refine ⟨w.rangeOrder g0, hx, hnd', ?_, hperm', ?_, ?_, ?_, hrows', ?_⟩
  · have : (w.rangeOrder g0).map (fun g => splitFileName procName solID g.1) =
        ((w.rangeOrder g0).map Prod.fst).map (splitFileName procName solID) := by
      simp
    rw [this]
    exact List.Nodup.map (fun a b h => splitFileName_inj procName solID a b h) hnd'
  · have h1 := hperm'.length_eq
    simp only [groupedRows, List.length_flatMap, List.length_map] at h1
    exact h1
  · intro r hr
    obtain ⟨g, hg⟩ : ∃ g ∈ g0, g.1 = groupKeyOf cols splitCols r := by
      have := (hkeys (groupKeyOf cols splitCols r)).2 ⟨r, hr, rfl⟩
      obtain ⟨g, hg, hk⟩ := List.mem_map.1 this
      exact ⟨g, hg, hk⟩
    refine ⟨g, ⟨hp.mem_iff.2 hg.1, ?_⟩, ?_⟩
    · rw [hrows g hg.1, List.mem_filter]
      exact ⟨hr, by simp [hg.2]⟩
    · rintro g' ⟨hg', hr'⟩
      have e' := hrows' g' hg'
      have e := hrows g hg.1
      rw [e', List.mem_filter] at hr'
      have hk : groupKeyOf cols splitCols r = g'.1 := by simpa using hr'.2
      have hk1 : g'.1 = g.1 := by rw [← hk, hg.2]
      apply Prod.ext hk1
      rw [e', e, hk1]
  · intro g1 hg1 g2 hg2 hne12 r hr1 hr2
    rw [hrows' g1 hg1, List.mem_filter] at hr1
    rw [hrows' g2 hg2, List.mem_filter] at hr2
    have h1 : groupKeyOf cols splitCols r = g1.1 := by simpa using hr1.2
    have h2 : groupKeyOf cols splitCols r = g2.1 := by simpa using hr2.2
    exact hne12 (h1.symm.trans h2)
  · intro g hg
    rw [hrows' g hg]
    exact List.filter_sublist _

theorem split_files_partition_witness :
    ∃ groups : RowGroups,
      extractData (sqlWorld [] sampleRows) (workerContext 0 1) "P1" "A" sampleSplitCfg
          sampleTemplates =
        (none, groups.map
          (splitFileOf sampleSplitCfg.SpoolOutputPath "P1" "A"
            ([⟨"ID"⟩, ⟨"REGION"⟩].map (fun col : ColumnConfig => col.Name)))) ∧
      (groups.map Prod.fst).Nodup ∧
      (groups.map (fun g => splitFileName "P1" "A" g.1)).Nodup ∧
      (groupedRows groups).Perm (sampleRows.map strValuesOf) ∧
      (groups.map (fun g => g.2.length)).sum = sampleRows.length ∧
      (∀ r ∈ sampleRows.map strValuesOf, ∃! g, g ∈ groups ∧ r ∈ g.2) ∧
      (∀ g1 ∈ groups, ∀ g2 ∈ groups, g1.1 ≠ g2.1 → ∀ r ∈ g1.2, r ∉ g2.2) ∧
      (∀ g ∈ groups, g.2 =
        (sampleRows.map strValuesOf).filter
          (fun r => groupKeyOf [⟨"ID"⟩, ⟨"REGION"⟩] ["REGION"] r = g.1)) ∧
      (∀ g ∈ groups, g.2.Sublist (sampleRows.map strValuesOf)) :=
  split_files_partition (sqlWorld [] sampleRows) (workerContext 0 1) "P1" "A" sampleSplitCfg
    sampleTemplates [⟨"ID"⟩, ⟨"REGION"⟩] ["REGION"] sampleRows
    (fun g => List.Perm.refl g) (by decide) (by decide) (by decide)
    (fun _ => rfl) (by decide) (fun _ => rfl)

/-- The sample rows split by `REGION`: a file for `N` and one for the null region, whose
key is empty. -/
theorem extractData_split_sample :
    extractData (sqlWorld [] sampleRows) (workerContext 0 1) "P1" "A" sampleSplitCfg
        sampleTemplates =
      (none, [⟨"out", "P1_A_N.spool", [["ID", "REGION"], ["1", "N"], ["3", "N"]], true⟩,
              ⟨"out", "P1_A_.spool", [["ID", "REGION"], ["2", ""]], true⟩]) := by
  decide

/-! ## The non-split path -/

theorem writeRows_ok (cols : List ColumnConfig) (rows : List DbRow) (records : List (List String))
    (hscan : ∀ r ∈ rows, r.length = cols.length) :
    writeRows cols rows records = (none, records ++ rows.map strValuesOf) := by
  induction rows generalizing records with
  | nil => simp [writeRows]
  | cons row rest ih =>
    have h1 := scanRow_ok cols.length row (hscan row (by simp))
    simp only [writeRows, h1, List.map_cons]
    rw [ih _ (fun r hr => hscan r (List.mem_cons_of_mem _ hr))]
    simp

theorem strValuesOf_eq (values : List NullString) :
    strValuesOf values = values.map (fun v => v.getD "") := by
  unfold strValuesOf
  apply List.map_congr_left
  intro v _
  cases v <;> rfl

/-- C7: on the non-split path (no split rule for the procedure, or an empty one), when every
row scans and the file can be created, `extractData` returns nil having written the single
file `<procedure>_<solID>.spool`, flushed, whose records are the template column names in
template order followed by one record per result row in result-set order, each cell being the
empty string for a null and the value's string otherwise. -/
theorem plain_file_rows (w : World) (ctx : Context) (procName solID : String)
    (cfg : ExtractionConfig) (templates : GoMap (List ColumnConfig))
    (cols : List ColumnConfig) (rows : List DbRow)
    (htmpl : templates procName = some cols)
    (hrule : cfg.SplitRules procName = none ∨ cfg.SplitRules procName = some [])
    (hquery : ∀ query, w.QueryContext ctx query solID = .ok rows)
    (hscan : ∀ r ∈ rows, r.length = cols.length)
    (hcreate : w.Create cfg.SpoolOutputPath (procName ++ "_" ++ solID ++ ".spool") = none) :
    extractData w ctx procName solID cfg templates =
      (none, [{ dir := cfg.SpoolOutputPath, fileName := procName ++ "_" ++ solID ++ ".spool",
                records := cols.map (fun col => col.Name) ::
                  rows.map (fun row => row.map (fun v => v.getD "")),
                flushed := true }]) := by
  have hrows : rows.map strValuesOf = rows.map (fun row => row.map (fun v => v.getD "")) :=
    List.map_congr_left (fun row _ => strValuesOf_eq row)
  rcases hrule with h | h
  · simp [extractData, htmpl, hquery, h, hcreate, writeRows_ok cols rows _ hscan, hrows]
  · simp [extractData, htmpl, hquery, h, hcreate, writeRows_ok cols rows _ hscan, hrows]

theorem plain_file_rows_witness :
    extractData (sqlWorld [] sampleRows) (workerContext 0 1) "P1" "A" samplePlainCfg
        sampleTemplates =
      (none, [{ dir := samplePlainCfg.SpoolOutputPath, fileName := "P1" ++ "_" ++ "A" ++ ".spool",
                records := [⟨"ID"⟩, ⟨"REGION"⟩].map (fun col : ColumnConfig => col.Name) ::
                  sampleRows.map (fun row => row.map (fun v => v.getD "")),
                flushed := true }]) :=
  plain_file_rows (sqlWorld [] sampleRows) (workerContext 0 1) "P1" "A" samplePlainCfg
    sampleTemplates [⟨"ID"⟩, ⟨"REGION"⟩] sampleRows (by decide) (Or.inl (by decide))
    (fun _ => rfl) (by decide) rfl

/-- The sample rows without a split rule: one file, the null rendered as the empty string. -/
theorem extractData_plain_sample :
    extractData (sqlWorld [] sampleRows) (workerContext 0 1) "P1" "A" samplePlainCfg
        sampleTemplates =
      (none, [⟨"out", "P1_A.spool", [["ID", "REGION"], ["1", "N"], ["2", ""], ["3", "N"]],
        true⟩]) := by
  decide

/-- A row of the wrong width is a scan error: on the non-split path the file stays unflushed,
on the split path no file is made. -/
theorem extractData_scan_error_sample :
    extractData (sqlWorld [] [[some "1", some "N"], [some "2"]]) (workerContext 0 1) "P1" "A"
        samplePlainCfg sampleTemplates =
      (some "sql: expected 1 destination arguments in Scan, not 2",
        [⟨"out", "P1_A.spool", [["ID", "REGION"], ["1", "N"]], false⟩]) ∧
    extractData (sqlWorld [] [[some "1", some "N"], [some "2"]]) (workerContext 0 1) "P1" "A"
        sampleSplitCfg sampleTemplates =
      (some "sql: expected 1 destination arguments in Scan, not 2", []) := by
  decide

/-! ## Group keys -/

theorem keyParts_inner (l : List (Nat × ColumnConfig)) (splitCol : String)
    (strValues acc : List String) :
    l.foldl (fun keyParts ic => if ic.2.Name = splitCol then keyParts ++ [strValues.getD ic.1 ""]
        else keyParts) acc =
      acc ++ ((l.filter (fun ic => ic.2.Name = splitCol)).map Prod.fst).map
        (fun i => strValues.getD i "") := by
  induction l generalizing acc with
  | nil => simp
  | cons ic rest ih =>
    rw [List.foldl_cons, ih]
    by_cases h : ic.2.Name = splitCol
    · simp [h, List.filter_cons]
    · simp [h, List.filter_cons]

theorem keyParts_outer (cols : List ColumnConfig) (splitCols : List String)
    (strValues acc : List String) :
    splitCols.foldl
      (fun keyParts splitCol =>
        cols.enum.foldl
          (fun keyParts ic => if ic.2.Name = splitCol then keyParts ++ [strValues.getD ic.1 ""]
            else keyParts)
          keyParts)
      acc = acc ++ (splitIndices cols splitCols).map (fun i => strValues.getD i "") := by
  induction splitCols generalizing acc with
  | nil => simp [splitIndices]
  | cons sc rest ih =>
    rw [List.foldl_cons, ih, keyParts_inner]
    simp [splitIndices, List.flatMap_cons]

theorem keyPartsOf_eq (cols : List ColumnConfig) (splitCols : List String)
    (strValues : List String) :
    keyPartsOf cols splitCols strValues =
      (splitIndices cols splitCols).map (fun i => strValues.getD i "") := by
  unfold keyPartsOf
  rw [keyParts_outer, List.nil_append]

theorem mem_splitIndices (cols : List ColumnConfig) (splitCols : List String) (i : Nat) :
    i ∈ splitIndices cols splitCols ↔
      ∃ splitCol ∈ splitCols, ∃ ic ∈ cols.enum, ic.2.Name = splitCol ∧ ic.1 = i := by
  simp only [splitIndices, List.mem_flatMap, List.mem_map, List.mem_filter, decide_eq_true_eq]
  constructor
  · rintro ⟨sc, hsc, ic, ⟨hic, hn⟩, hi⟩; exact ⟨sc, hsc, ic, hic, hn, hi⟩
  · rintro ⟨sc, hsc, ic, hic, hn, hi⟩; exact ⟨sc, hsc, ic, ⟨hic, hn⟩, hi⟩

theorem equalSplitValues_iff (cols : List ColumnConfig) (splitCols : List String)
    (r1 r2 : List String) :
    equalSplitValues cols splitCols r1 r2 ↔
      keyPartsOf cols splitCols r1 = keyPartsOf cols splitCols r2 := by
  rw [keyPartsOf_eq, keyPartsOf_eq, List.map_inj_left]
  constructor
  · intro h i hi
    obtain ⟨sc, hsc, ic, hic, hn, rfl⟩ := (mem_splitIndices cols splitCols i).1 hi
    exact h sc hsc ic hic hn
  · intro h sc hsc ic hic hn
    exact h ic.1 ((mem_splitIndices cols splitCols ic.1).2 ⟨sc, hsc, ic, hic, hn, rfl⟩)

/-! ### `strings.Join` with `_` -/

theorem intercalate_go_data (sep acc : String) (l : List String) :
    (String.intercalate.go acc sep l).data =
      acc.data ++ l.flatMap (fun a => sep.data ++ a.data) := by
  induction l generalizing acc with
  | nil => simp [String.intercalate.go]
  | cons a rest ih =>
    simp [String.intercalate.go, ih, String.data_append, List.flatMap_cons]

theorem intercalate_cons_data (sep a : String) (l : List String) :
    (sep.intercalate (a :: l)).data = a.data ++ l.flatMap (fun b => sep.data ++ b.data) := by
  simp [String.intercalate, intercalate_go_data]

/-- Splitting at the first `_`. -/
theorem split_at_underscore (u v x y : List Char) (hu : '_' ∉ u) (hv : '_' ∉ v)
    (hx : x = [] ∨ ∃ t, x = '_' :: t) (hy : y = [] ∨ ∃ t, y = '_' :: t)
    (h : u ++ x = v ++ y) : u = v ∧ x = y := by
  induction u generalizing v with
  | nil =>
    cases v with
    | nil => exact ⟨rfl, by simpa using h⟩
    | cons d v' =>
      exfalso
      simp only [List.nil_append, List.cons_append] at h
      rcases hx with hx | ⟨t, hx⟩
      · rw [hx] at h; exact absurd h (by simp)
      · rw [hx] at h
        injection h with h1 _
        exact hv (by rw [← h1]; exact List.mem_cons_self _ _)
  | cons c u' ih =>
    cases v with
    | nil =>
      exfalso
      simp only [List.nil_append, List.cons_append] at h
      rcases hy with hy | ⟨t, hy⟩
      · rw [hy] at h; exact absurd h (by simp)
      · rw [hy] at h
        injection h with h1 _
        exact hu (by rw [h1]; exact List.mem_cons_self _ _)
    | cons d v' =>
      simp only [List.cons_append] at h
      injection h with h1 h2
      have hu' : '_' ∉ u' := fun hc => hu (List.mem_cons_of_mem _ hc)
      have hv' : '_' ∉ v' := fun hc => hv (List.mem_cons_of_mem _ hc)
      obtain ⟨e1, e2⟩ := ih v' hu' hv' h2
      exact ⟨by rw [h1, e1], e2⟩

theorem underscore_tail_inj (l1 l2 : List String) (hlen : l1.length = l2.length)
    (h1 : ∀ a ∈ l1, '_' ∉ a.data) (h2 : ∀ a ∈ l2, '_' ∉ a.data)
    (h : l1.flatMap (fun b => "_".data ++ b.data) = l2.flatMap (fun b => "_".data ++ b.data)) :
    l1 = l2 := by
  induction l1 generalizing l2 with
  | nil =>
    cases l2 with
    | nil => rfl
    | cons b bs => simp at hlen
  | cons a as ih =>
    cases l2 with
    | nil => simp at hlen
    | cons b bs =>
      simp only [List.flatMap_cons, List.append_assoc] at h
      have h' := List.append_cancel_left h
      have hshape : ∀ l : List String, l.flatMap (fun b => "_".data ++ b.data) = [] ∨
          ∃ t, l.flatMap (fun b => "_".data ++ b.data) = '_' :: t := by
        intro l
        cases l with
        | nil => left; rfl
        | cons c cs => right; exact ⟨_, by simp [List.flatMap_cons]; rfl⟩
      obtain ⟨e1, e2⟩ := split_at_underscore a.data b.data _ _ (h1 a (by simp)) (h2 b (by simp))
        (hshape as) (hshape bs) h'
      have := ih bs (by simpa using hlen) (fun x hx => h1 x (List.mem_cons_of_mem _ hx))
        (fun x hx => h2 x (List.mem_cons_of_mem _ hx)) e2
      rw [String.ext e1, this]

theorem join_underscore_inj (l1 l2 : List String) (hlen : l1.length = l2.length)
    (h1 : ∀ a ∈ l1, '_' ∉ a.data) (h2 : ∀ a ∈ l2, '_' ∉ a.data)
    (h : "_".intercalate l1 = "_".intercalate l2) : l1 = l2 := by
  cases l1 with
  | nil =>
    cases l2 with
    | nil => rfl
    | cons b bs => simp at hlen
  | cons a as =>
    cases l2 with
    | nil => simp at hlen
    | cons b bs =>
      have h' := congrArg String.data h
      rw [intercalate_cons_data, intercalate_cons_data] at h'
      have hshape : ∀ l : List String, l.flatMap (fun b => "_".data ++ b.data) = [] ∨
          ∃ t, l.flatMap (fun b => "_".data ++ b.data) = '_' :: t := by
        intro l
        cases l with
        | nil => left; rfl
        | cons c cs => right; exact ⟨_, by simp [List.flatMap_cons]; rfl⟩
      obtain ⟨e1, e2⟩ := split_at_underscore a.data b.data _ _ (h1 a (by simp)) (h2 b (by simp))
        (hshape as) (hshape bs) h'
      have := underscore_tail_inj as bs (by simpa using hlen)
        (fun x hx => h1 x (List.mem_cons_of_mem _ hx))
        (fun x hx => h2 x (List.mem_cons_of_mem _ hx)) e2
      rw [String.ext e1, this]

/-! ## Which rows share a split file -/

/-- C6 (as stated, refuted): with split columns `A` and `B`, the rows `("a_b", "c")` and
`("a", "b_c")` both have the key `a_b_c`; `extractData` writes them to the one file
`T_S_a_b_c.spool` although they differ in both split columns. -/
theorem split_same_file_unequal_values :
    extractData (sqlWorld [] collideRows) (workerContext 0 1) "T" "S" collideCfg
        collideTemplates =
      (none, [⟨"out", "T_S_a_b_c.spool", [["A", "B"], ["a_b", "c"], ["a", "b_c"]], true⟩]) ∧
    sameSplitFile
      (extractData (sqlWorld [] collideRows) (workerContext 0 1) "T" "S" collideCfg
        collideTemplates).2 ["a_b", "c"] ["a", "b_c"] ∧
    ¬ equalSplitValues [⟨"A"⟩, ⟨"B"⟩] ["A", "B"] ["a_b", "c"] ["a", "b_c"] := by
  have hx : extractData (sqlWorld [] collideRows) (workerContext 0 1) "T" "S" collideCfg
        collideTemplates =
      (none, [⟨"out", "T_S_a_b_c.spool", [["A", "B"], ["a_b", "c"], ["a", "b_c"]], true⟩]) := by
    decide
  refine ⟨hx, ?_, ?_⟩
  · rw [hx]
    exact ⟨_, List.mem_singleton.2 rfl, by decide, by decide⟩
  · intro h
    have := h "A" (by decide) (0, ⟨"A"⟩) (by decide) rfl
    exact absurd this (by decide)

/-- C6 (amended): on the split path, when every row scans and every file can be created, two
result rows are written to the same split file exactly when their group keys, the `_`-joined
rendered values of the split columns, are equal. Rows with equal values in every split column
are therefore written to the same file; rows written to the same file have equal values in
every split column provided none of these values contains `_`. -/
theorem split_same_file_iff_same_key (w : World) (ctx : Context) (procName solID : String)
    (cfg : ExtractionConfig) (templates : GoMap (List ColumnConfig))
    (cols : List ColumnConfig) (splitCols : List String) (rows : List DbRow)
    (horder : ∀ g, (w.rangeOrder g).Perm g)
    (htmpl : templates procName = some cols)
    (hrule : cfg.SplitRules procName = some splitCols) (hne : splitCols ≠ [])
    (hquery : ∀ query, w.QueryContext ctx query solID = .ok rows)
    (hscan : ∀ r ∈ rows, r.length = cols.length)
    (hcreate : ∀ name, w.Create cfg.SpoolOutputPath name = none)
    (r1 r2 : DbRow) (hr1 : r1 ∈ rows) (hr2 : r2 ∈ rows) :
    (extractData w ctx procName solID cfg templates).1 = none ∧
    (sameSplitFile (extractData w ctx procName solID cfg templates).2
        (strValuesOf r1) (strValuesOf r2) ↔
      groupKeyOf cols splitCols (strValuesOf r1) = groupKeyOf cols splitCols (strValuesOf r2)) ∧
    (equalSplitValues cols splitCols (strValuesOf r1) (strValuesOf r2) →
      sameSplitFile (extractData w ctx procName solID cfg templates).2
        (strValuesOf r1) (strValuesOf r2)) ∧
    ((∀ a ∈ keyPartsOf cols splitCols (strValuesOf r1), '_' ∉ a.data) →
      (∀ a ∈ keyPartsOf cols splitCols (strValuesOf r2), '_' ∉ a.data) →
      sameSplitFile (extractData w ctx procName solID cfg templates).2
        (strValuesOf r1) (strValuesOf r2) →
      equalSplitValues cols splitCols (strValuesOf r1) (strValuesOf r2)) := by
  have hx := extractData_split_ok w ctx procName solID cfg templates cols splitCols rows
    htmpl hrule hne hquery hscan hcreate
  obtain ⟨-, hkeys, hrows, -⟩ :=
    pushAll_inv (groupKeyOf cols splitCols) (rows.map strValuesOf)
  generalize (rows.map strValuesOf).foldl
    (fun (g : RowGroups) r => g.push (groupKeyOf cols splitCols r) r) [] = g0
    at hx hkeys hrows
  have hp := horder g0
  have hm1 : strValuesOf r1 ∈ rows.map strValuesOf := List.mem_map_of_mem _ hr1
  have hm2 : strValuesOf r2 ∈ rows.map strValuesOf := List.mem_map_of_mem _ hr2
  have hiff : sameSplitFile (extractData w ctx procName solID cfg templates).2
        (strValuesOf r1) (strValuesOf r2) ↔
      groupKeyOf cols splitCols (strValuesOf r1) =
        groupKeyOf cols splitCols (strValuesOf r2) := by
    rw [hx]
    constructor
    · rintro ⟨f, hf, h1, h2⟩
      obtain ⟨g, hg, rfl⟩ := List.mem_map.1 hf
      have e := hrows g (hp.mem_iff.1 hg)
      simp only [splitFileOf, List.tail_cons] at h1 h2
      rw [e, List.mem_filter] at h1 h2
      have k1 : groupKeyOf cols splitCols (strValuesOf r1) = g.1 := by simpa using h1.2
      have k2 : groupKeyOf cols splitCols (strValuesOf r2) = g.1 := by simpa using h2.2
      rw [k1, k2]
    · intro hk
      have := (hkeys (groupKeyOf cols splitCols (strValuesOf r1))).2 ⟨_, hm1, rfl⟩
      obtain ⟨g, hg, hgk⟩ := List.mem_map.1 this
      refine ⟨splitFileOf cfg.SpoolOutputPath procName solID (cols.map (fun col => col.Name)) g,
        List.mem_map_of_mem _ (hp.mem_iff.2 hg), ?_, ?_⟩
      · simp only [splitFileOf, List.tail_cons]
        rw [hrows g hg, List.mem_filter]
        exact ⟨hm1, by simp [hgk]⟩
      · simp only [splitFileOf, List.tail_cons]
        rw [hrows g hg, List.mem_filter]
        exact ⟨hm2, by simp [hgk, hk]⟩
  refine ⟨by rw [hx], hiff, ?_, ?_⟩
  · intro heq
    apply hiff.2
    unfold groupKeyOf
    rw [(equalSplitValues_iff cols splitCols _ _).1 heq]
  · intro hu1 hu2 hsame
    have hk := hiff.1 hsame
    unfold groupKeyOf at hk
    apply (equalSplitValues_iff cols splitCols _ _).2
    apply join_underscore_inj _ _ _ hu1 hu2 hk
    rw [keyPartsOf_eq, keyPartsOf_eq, List.length_map, List.length_map]

theorem split_same_file_iff_same_key_witness :
    (extractData (sqlWorld [] sampleRows) (workerContext 0 1) "P1" "A" sampleSplitCfg
        sampleTemplates).1 = none ∧
    (sameSplitFile (extractData (sqlWorld [] sampleRows) (workerContext 0 1) "P1" "A"
          sampleSplitCfg sampleTemplates).2
        (strValuesOf [some "1", some "N"]) (strValuesOf [some "3", some "N"]) ↔
      groupKeyOf [⟨"ID"⟩, ⟨"REGION"⟩] ["REGION"] (strValuesOf [some "1", some "N"]) =
        groupKeyOf [⟨"ID"⟩, ⟨"REGION"⟩] ["REGION"] (strValuesOf [some "3", some "N"])) ∧
    (equalSplitValues [⟨"ID"⟩, ⟨"REGION"⟩] ["REGION"] (strValuesOf [some "1", some "N"])
        (strValuesOf [some "3", some "N"]) →
      sameSplitFile (extractData (sqlWorld [] sampleRows) (workerContext 0 1) "P1" "A"
          sampleSplitCfg sampleTemplates).2
        (strValuesOf [some "1", some "N"]) (strValuesOf [some "3", some "N"])) ∧
    ((∀ a ∈ keyPartsOf [⟨"ID"⟩, ⟨"REGION"⟩] ["REGION"] (strValuesOf [some "1", some "N"]),
        '_' ∉ a.data) →
      (∀ a ∈ keyPartsOf [⟨"ID"⟩, ⟨"REGION"⟩] ["REGION"] (strValuesOf [some "3", some "N"]),
        '_' ∉ a.data) →
      sameSplitFile (extractData (sqlWorld [] sampleRows) (workerContext 0 1) "P1" "A"
          sampleSplitCfg sampleTemplates).2
        (strValuesOf [some "1", some "N"]) (strValuesOf [some "3", some "N"]) →
      equalSplitValues [⟨"ID"⟩, ⟨"REGION"⟩] ["REGION"] (strValuesOf [some "1", some "N"])
        (strValuesOf [some "3", some "N"])) :=
  split_same_file_iff_same_key (sqlWorld [] sampleRows) (workerContext 0 1) "P1" "A"
    sampleSplitCfg sampleTemplates [⟨"ID"⟩, ⟨"REGION"⟩] ["REGION"] sampleRows
    (fun g => List.Perm.refl g) (by decide) (by decide) (by decide)
    (fun _ => rfl) (by decide) (fun _ => rfl)
    [some "1", some "N"] [some "3", some "N"] (by decide) (by decide)

/-! ## Cancellation and the running task -/

/-- C8 (code evaluated at the failing input): the worker hands its own context to the action, so
once the worker's cancel function (here `1`) has been called the query of the task in progress
fails and the task is recorded as FAIL, while the same task is recorded as SUCCESS when the
cancel function has not been called. -/
theorem worker_cancel_fails_running_task :
    runTask "E" (sqlWorld [] sampleRows) (fun _ _ _ _ => none) (workerContext 0 1)
        samplePlainCfg sampleTemplates ⟨"A", "P1"⟩ 10 20 =
      ⟨⟨"A", "P1"⟩, 10, 20, none⟩ ∧
    runTask "E" (sqlWorld [1] sampleRows) (fun _ _ _ _ => none) (workerContext 0 1)
        samplePlainCfg sampleTemplates ⟨"A", "P1"⟩ 10 20 =
      ⟨⟨"A", "P1"⟩, 10, 20, some "query failed: context canceled"⟩ ∧
    (mkProcLog (runTask "E" (sqlWorld [] sampleRows) (fun _ _ _ _ => none) (workerContext 0 1)
        samplePlainCfg sampleTemplates ⟨"A", "P1"⟩ 10 20)).Status = "SUCCESS" ∧
    (mkProcLog (runTask "E" (sqlWorld [1] sampleRows) (fun _ _ _ _ => none) (workerContext 0 1)
        samplePlainCfg sampleTemplates ⟨"A", "P1"⟩ 10 20)).Status = "FAIL" := by
  decide

end ExtractNew
